import Mathlib

/-!
Verification of the POCSAG encoder and transmission pipeline of the `pisag`
repository, as shallowly embedded Lean definitions.

The definitions below are translated from `pisag/plugins/encoders/pure_python.py`,
`pisag/utils/validation.py`, `pisag/services/message_service.py`,
`pisag/services/transmission_queue.py` and `pisag/services/transmission_worker.py`.
Machine integers are modelled as `Nat` (all codeword arithmetic in the source
stays below 2^32), Python strings as `List Char`, Python lists as `List`,
and the float accumulator of the FSK modulator as exact rationals.
-/

set_option maxRecDepth 1000000

/-! ## Constants (class attributes of `PurePythonEncoder`) -/

def BCH_GENERATOR : Nat := 0x769

def IDLE_CODEWORD : Nat := 0x7A89C197

def PREAMBLE_WORD : Nat := 0xAAAAAAAA

def SYNC_WORD : Nat := 0x7CD215D8

/-! ## Bit primitives (`_calculate_bch_parity`, `_calculate_even_parity`)

`_calculate_bch_parity(data, data_bits)` runs `reg = data << 10` and then,
for `i` from `data_bits - 1` down to `0`, XORs `generator << i` into `reg`
whenever bit `i + 10` of `reg` is set, finally returning `reg & 0x3FF`.
`bchReduce reg k` is that loop with `k` iterations remaining: the first
step it performs is the one for `i = k - 1`. -/

def bchReduce (reg : Nat) : Nat → Nat
  | 0 => reg
  | k+1 => bchReduce (if reg.testBit (k + 10) then reg ^^^ (BCH_GENERATOR <<< k) else reg) k

def calculate_bch_parity (data dataBits : Nat) : Nat :=
  (bchReduce (data <<< 10) dataBits) &&& 0x3FF

/-- Model of `bin(n).count("1")` in the source, for the 32-bit values the encoder
produces (every codeword in the source is `< 2^32`, so counting the low
32 bits is exact on the encoder's domain). -/
def countOnes32 (n : Nat) : Nat :=
  ((List.range 32).map fun i => if n.testBit i then 1 else 0).sum

/-- Source `_calculate_even_parity`: 1 if the bit count is odd, else 0. -/
def calculate_even_parity (cw31 : Nat) : Nat := countOnes32 cw31 &&& 1

/-- Remainder of GF(2) polynomial division of a 32-bit word by the BCH
generator `0x769`: the same shift-and-XOR long division as
`_calculate_bch_parity`, run over bits 31 down to 10.  A word is
"BCH-clean" (syndrome 0, divisible by the generator) iff this is 0. -/
def syndrome32 (n : Nat) : Nat := bchReduce n 22

/-! ## Address codeword construction (`_generate_address_codeword`) -/

/-- The 31-bit word `(data << 10) | parity` built by
`_generate_address_codeword` before the even-parity bit is ORed in. -/
def generate_address_cw31 (ric : Nat) : Nat :=
  let address := (ric >>> 3) &&& 0x3FFFF
  let function := ric &&& 0x3
  let data := ((address <<< 3) ||| (function <<< 1)) ||| 0
  let parity := calculate_bch_parity data 21
  (data <<< 10) ||| parity

/-- Source `_generate_address_codeword`: the even-parity bit is ORed into bit 0 of
the 31-bit word, with no left shift (`codeword = cw31 | even`). -/
def generate_address_codeword (ric : Nat) : Nat :=
  let cw31 := generate_address_cw31 ric
  cw31 ||| calculate_even_parity cw31

/-! ## Alphanumeric message encoding (`_encode_alphanumeric`)

The source walks the message, appending the low 7 bits of each character
LSB-first to a bit list, pads with LSB-first space (0x20) bits to the next
multiple of 20 — breaking out of the inner per-character loop as soon as
the boundary is hit — and then packs each 20-bit block MSB-first into a
message codeword whose 21-bit data field carries flag bit 1 in its LSB. -/

def charBits (c : Nat) : List Nat :=
  (List.range 7).map fun shift => ((c &&& 0x7F) >>> shift) &&& 1

def messageCharBits (msg : List Nat) : List Nat := msg.flatMap charBits

/-- The inner padding loop: `for shift in range(0, 7)` appending one space
bit at a time and breaking as soon as the length is a multiple of 20. -/
def innerPad : List Nat → List Nat → List Nat
  | bits, [] => bits
  | bits, shift :: rest =>
    let bits2 := bits ++ [(0x20 >>> shift) &&& 1]
    if bits2.length % 20 = 0 then bits2 else innerPad bits2 rest

/-- The outer `while len(bits) % 20 != 0` padding loop, fuelled; 20 outer
iterations are far more than the at most 3 the loop can take. -/
def padBits : Nat → List Nat → List Nat
  | 0, bits => bits
  | fuel+1, bits =>
    if bits.length % 20 = 0 then bits else padBits fuel (innerPad bits (List.range 7))

def encode_alphanumeric_bits (msg : List Nat) : List Nat :=
  padBits 20 (messageCharBits msg)

/-- Packing loop `payload = (payload << 1) | bit` over a 20-bit block (MSB-first). -/
def packMSB (block : List Nat) : Nat := block.foldl (fun p b => (p <<< 1) ||| b) 0

/-- Message codeword from a packed 20-bit payload: set flag bit in the LSB
of the 21-bit data field, add BCH parity, OR in the even bit (no shift). -/
def message_codeword (payload : Nat) : Nat :=
  let dataVal := (payload <<< 1) ||| 1
  let parity := calculate_bch_parity dataVal 21
  let cw31 := (dataVal <<< 10) ||| parity
  cw31 ||| calculate_even_parity cw31

/-- Blocking loop `for i in range(0, len(bits), 20): bits[i:i+20]`, fuelled by the list
length (each step consumes 20 elements, so length is ample fuel). -/
def toBlocks : Nat → List Nat → List (List Nat)
  | 0, _ => []
  | _+1, [] => []
  | fuel+1, b :: rest => (b :: rest).take 20 :: toBlocks fuel ((b :: rest).drop 20)

def encode_alphanumeric (msg : List Nat) : List Nat :=
  let bits := encode_alphanumeric_bits msg
  (toBlocks bits.length bits).map fun block => message_codeword (packMSB block)

/-! Spec-side rendering of the alphanumeric bitstream law (from the spec
wording, to be compared with the source translation above): the 7-bit
characters LSB-first, then LSB-first space bits truncated exactly at the
next multiple-of-20 boundary. -/

def specCharBits (c : Nat) : List Nat :=
  (List.range 7).map fun shift => (c >>> shift) &&& 1

def spaceBits : List Nat := (List.range 7).map fun shift => (0x20 >>> shift) &&& 1

def specPadLen (n : Nat) : Nat := (20 - n % 20) % 20

def alpha_bits_spec (msg : List Nat) : List Nat :=
  let base := msg.flatMap specCharBits
  base ++ (spaceBits ++ spaceBits ++ spaceBits).take (specPadLen base.length)

/-! ## Batch assembly (`_generate_batch`)

The source emits an 18-word preamble once, then loops: each iteration
appends the sync word and a 16-slot batch initialised to idle codewords;
the first batch places the address codeword at slot `(ric & 0x7) * 2` and
fills message codewords from the next slot, later batches fill from slot
0; the loop ends when no message codewords remain. -/

/-- Slot-filling loop `for idx in range(startIdx, 16)`:
`if not remaining: break;
slots[idx] = remaining.pop(0)` — walk the slot list, skip `start` slots,
then overwrite slots from the front of `remaining` until it is empty.
Returns the updated slots and the leftover message codewords. -/
def fillSlots : List Nat → Nat → List Nat → List Nat × List Nat
  | [], _, rem => ([], rem)
  | s :: ss, 0, [] => (s :: ss, [])
  | _ :: ss, 0, c :: cs =>
    let res := fillSlots ss 0 cs
    (c :: res.1, res.2)
  | s :: ss, start+1, rem =>
    let res := fillSlots ss start rem
    (s :: res.1, res.2)

/-- The `while True` batch loop, fuelled; `len(messageCws) + 1` iterations
always suffice because every non-final iteration consumes at least one
message codeword. -/
def generate_batch_loop : Nat → Bool → Nat → Nat → List Nat → List Nat
  | 0, _, _, _, _ => []
  | fuel+1, isFirst, addrPos, addrCw, remaining =>
    let slots0 := List.replicate 16 IDLE_CODEWORD
    let slots1 := if isFirst then slots0.set addrPos addrCw else slots0
    let startIdx := if isFirst then addrPos + 1 else 0
    let res := fillSlots slots1 startIdx remaining
    let batch := SYNC_WORD :: res.1
    if res.2.isEmpty then batch
    else batch ++ generate_batch_loop fuel false addrPos addrCw res.2

def generate_batch (ric addressCw : Nat) (messageCws : List Nat) : List Nat :=
  List.replicate 18 PREAMBLE_WORD ++
    generate_batch_loop (messageCws.length + 1) true ((ric &&& 0x7) * 2) addressCw messageCws

/-! Spec-side rendering of the batch-framing rule (from the spec wording):
preamble once; first batch has idles before the address slot, the address
at `(ric & 0x7) * 2`, then message codewords, then idle fill; later
batches are 16-slot chunks of the remaining message codewords padded with
idles, each preceded by the sync word. -/

def chunk16 : Nat → List Nat → List (List Nat)
  | 0, _ => []
  | _+1, [] => []
  | fuel+1, x :: xs => (x :: xs).take 16 :: chunk16 fuel ((x :: xs).drop 16)

def batch_spec_first (a addrCw : Nat) (msgs : List Nat) : List Nat :=
  List.replicate a IDLE_CODEWORD ++ [addrCw] ++ msgs.take (15 - a) ++
    List.replicate (15 - a - msgs.length) IDLE_CODEWORD

def batch_spec_rest (chunk : List Nat) : List Nat :=
  SYNC_WORD :: (chunk ++ List.replicate (16 - chunk.length) IDLE_CODEWORD)

def transmission_spec (ric addrCw : Nat) (msgs : List Nat) : List Nat :=
  let a := (ric &&& 0x7) * 2
  let rest := msgs.drop (15 - a)
  List.replicate 18 PREAMBLE_WORD ++
    (SYNC_WORD :: batch_spec_first a addrCw msgs) ++
    (chunk16 rest.length rest).flatMap batch_spec_rest

/-! ## FSK modulation sample accounting (`_modulate_fsk`)

The source computes `spb_float = sample_rate / baud`, `spb_base =
int(spb_float)`, `spb_err = spb_float - spb_base`, allocates
`int(round(spb_float * len(bits)))` samples, then per bit emits
`spb_base` samples plus one extra when the error accumulator reaches 1,
finally trimming the array to the written index if they differ.  The
float accumulator is modelled with exact rationals; `int(x)` on the
nonnegative `spb_float` is the floor, and Python `round` rounds half to
even. -/

def pyRound (q : ℚ) : ℤ :=
  let f := Rat.floor q
  let r := q - f
  if r < 1/2 then f
  else if 1/2 < r then f + 1
  else if f % 2 = 0 then f else f + 1

/-- The per-bit sample-emission loop: returns the number of samples
written and the final accumulator value. -/
def modCount : List Bool → ℚ → ℤ → ℚ → ℤ × ℚ
  | [], _, _, acc => (0, acc)
  | _ :: bs, err, base, acc =>
    let acc2 := acc + err
    let extra : ℤ := if 1 ≤ acc2 then 1 else 0
    let acc3 := if 1 ≤ acc2 then acc2 - 1 else acc2
    let res := modCount bs err base acc3
    (base + extra + res.1, res.2)

def spb (sampleRate baud : Nat) : ℚ := (sampleRate : ℚ) / (baud : ℚ)

/-- Length of the sample array returned by `_modulate_fsk`: the written
index, except that the trimming slice can never exceed the allocation. -/
def modulate_fsk_len (sampleRate baud : Nat) (bits : List Bool) : ℤ :=
  let spbFloat := spb sampleRate baud
  let spbBase := Rat.floor spbFloat
  let spbErr := spbFloat - spbBase
  let totalSamples := pyRound (spbFloat * (bits.length : ℚ))
  let idx := (modCount bits spbErr spbBase 0).1
  if idx = totalSamples then totalSamples else min idx totalSamples

/-! ## Numeric message encoding (`_encode_numeric`) -/

/-- The BCD nibble table of `_encode_numeric`.  The source dictionary has
exactly these keys; input validation guarantees every message character
is one of them before this map is consulted. -/
def bcdMap (c : Char) : Nat :=
  if c = '0' then 0x0 else if c = '1' then 0x1 else if c = '2' then 0x2
  else if c = '3' then 0x3 else if c = '4' then 0x4 else if c = '5' then 0x5
  else if c = '6' then 0x6 else if c = '7' then 0x7 else if c = '8' then 0x8
  else if c = '9' then 0x9 else if c = 'U' then 0xA else if c = '-' then 0xC
  else if c = '[' then 0xD else if c = ']' then 0xE else 0xB

def numericCharBits (c : Char) : List Nat :=
  (List.range 4).map fun shift => (bcdMap c >>> shift) &&& 1

def innerPadNumeric : List Nat → List Nat → List Nat
  | bits, [] => bits
  | bits, shift :: rest =>
    let bits2 := bits ++ [(0xB >>> shift) &&& 1]
    if bits2.length % 20 = 0 then bits2 else innerPadNumeric bits2 rest

def padBitsNumeric : Nat → List Nat → List Nat
  | 0, bits => bits
  | fuel+1, bits =>
    if bits.length % 20 = 0 then bits
    else padBitsNumeric fuel (innerPadNumeric bits (List.range 4))

def encode_numeric (msg : List Char) : List Nat :=
  let bits := padBitsNumeric 20 (msg.flatMap numericCharBits)
  (toBlocks bits.length bits).map fun block => message_codeword (packMSB block)

/-! ## Input validation

`validate_ric_format` (`pisag/utils/validation.py`) is
`re.fullmatch(r"\d{7}", ric)`: exactly seven digit characters.
`MessageService._validate_inputs` raises `ValueError` on the first failing
check; `PurePythonEncoder._validate_inputs` has its own, different RIC
rule (`ric.isdigit() and 1 <= len(ric) <= 7` plus the 2^21 - 1 bound). -/

def validate_ric_format (ric : List Char) : Bool :=
  decide (ric.length = 7) && ric.all Char.isDigit

def validate_message_length (text : List Char) (messageType : String) : Bool :=
  if messageType = "alphanumeric" then decide (text.length ≤ 80) else true

def validate_message_content (text : List Char) (messageType : String) : Bool :=
  if messageType = "numeric" then text.all fun c => c.isDigit || c = ' '
  else text.all fun c => decide (0x20 ≤ c.toNat) && decide (c.toNat ≤ 0x7E)

/-- Value `int(ric)` of a digit string. -/
def strToNat (l : List Char) : Nat := l.foldl (fun a c => 10 * a + (c.toNat - 48)) 0

/-- Python `str.isdigit`: true iff the string is nonempty and every
character is a digit. -/
def pyIsDigit (s : List Char) : Bool := !s.isEmpty && s.all Char.isDigit

/-- Source `MessageService._validate_inputs` (the enqueue-time request
validation), returning the first `ValueError` message or success. -/
def message_service_validate (recipients : List (List Char)) (text : List Char)
    (messageType : String) : Except String Unit :=
  if !(decide (messageType = "alphanumeric") || decide (messageType = "numeric")) then
    Except.error "message_type must be alphanumeric or numeric"
  else if !(recipients.all validate_ric_format) then
    Except.error "RIC must be a 7-digit numeric string"
  else if !(validate_message_length text messageType) then
    Except.error "Message exceeds allowed length"
  else if !(validate_message_content text messageType) then
    Except.error "Message contains invalid characters for its type"
  else Except.ok ()

def SUPPORTED_POCSAG_BAUD : List Nat := [512, 1200, 2400]

def numericAllowed : List Char :=
  ['0', '1', '2', '3', '4', '5', '6', '7', '8', '9', 'U', '-', '[', ']', ' ']

/-- Source `PurePythonEncoder._validate_inputs`: raises `ValueError` on the first
failing check (the `0 <= ric_int` half of the range check is vacuous on
`Nat`); a message longer than 80 characters only logs a warning. -/
def encoder_validate_inputs (ric message : List Char) (messageType : String)
    (baudRate : Nat) : Except String Unit :=
  if !(pyIsDigit ric && decide (1 ≤ ric.length) && decide (ric.length ≤ 7)) then
    Except.error "RIC must be a digit string of length 1-7"
  else if !(decide (strToNat ric ≤ 2097151)) then
    Except.error "RIC out of range (0 to 2,097,151)"
  else if !(decide (messageType = "alphanumeric") || decide (messageType = "numeric")) then
    Except.error "message_type must be alphanumeric or numeric"
  else if !(SUPPORTED_POCSAG_BAUD.contains baudRate) then
    Except.error "POCSAG baud rate must be one of (512, 1200, 2400)"
  else if messageType = "alphanumeric" then
    if message.all (fun c => decide (0x20 ≤ c.toNat) && decide (c.toNat ≤ 0x7E)) then
      Except.ok ()
    else Except.error "Alphanumeric messages must use printable ASCII (0x20-0x7E)"
  else
    if message.all (fun c => numericAllowed.contains c) then Except.ok ()
    else Except.error "Numeric messages may contain digits, space, U, -, [, ]"

/-- The `if len(message) > 80: logger.warning(...)` branch of the
encoder validation. -/
def encoder_warns_long (message : List Char) : Bool := decide (80 < message.length)

/-- The spec rule for RICs (`^\d{1,7}$` and at most 2^21 - 1), rendered
from the spec wording for comparison with the two validators above. -/
def spec_ric_rule (ric : List Char) : Bool :=
  decide (1 ≤ ric.length) && decide (ric.length ≤ 7) && ric.all Char.isDigit &&
    decide (strToNat ric ≤ 2097151)

/-! ## The public `encode` pipeline (`PurePythonEncoder.encode`)

The whole body runs inside `try`; any exception — including the
`ValueError`s of `_validate_inputs` — is re-raised as
`EncodingError(str(exc))`.  The success value is modelled as the
transmission bitstream (`_codewords_to_bits` of the batch codewords); the
FSK modulation step that turns it into IQ samples is total and does not
affect the error flow this claim is about. -/

inductive PyErr
  | valueError (msg : String)
  | encodingError (msg : String)
deriving DecidableEq

def pyErrMessage : PyErr → String
  | .valueError m => m
  | .encodingError m => m

/-- Source `_codewords_to_bits`: each codeword MSB-first (`shift` from 31 down
to 0). -/
def codewords_to_bits (cws : List Nat) : List Nat :=
  cws.flatMap fun cw => (List.range 32).map fun i => (cw >>> (31 - i)) &&& 1

/-- The `try` body of `encode`. -/
def encode_inner (ric message : List Char) (messageType : String)
    (baudRate : Nat) : Except PyErr (List Nat) :=
  match encoder_validate_inputs ric message messageType baudRate with
  | Except.error m => Except.error (PyErr.valueError m)
  | Except.ok _ =>
    let ricInt := strToNat ric
    let addressCw := generate_address_codeword ricInt
    let msgCws := if messageType = "alphanumeric"
      then encode_alphanumeric (message.map Char.toNat)
      else encode_numeric message
    let batchCws := generate_batch ricInt addressCw msgCws
    Except.ok (codewords_to_bits batchCws)

/-- Source `PurePythonEncoder.encode`: `except Exception as exc: raise
EncodingError(str(exc)) from exc`. -/
def encode (ric message : List Char) (messageType : String)
    (baudRate : Nat) : Except PyErr (List Nat) :=
  match encode_inner ric message messageType baudRate with
  | Except.ok v => Except.ok v
  | Except.error e => Except.error (PyErr.encodingError (pyErrMessage e))

/-! ## Transmission queue (`TransmissionQueue`)

The queue state is its item list plus the paused flag; `enqueue` appends
(after a key-presence check on the request dictionary that is orthogonal
to ordering), `dequeue` returns `None` without touching the list when
paused, `pause`/`resume` toggle the flag. -/

structure TransmissionQueue (α : Type) where
  items : List α
  paused : Bool
deriving DecidableEq

def TransmissionQueue.empty (α : Type) : TransmissionQueue α := ⟨[], false⟩

def TransmissionQueue.enqueue (q : TransmissionQueue α) (request : α) : TransmissionQueue α :=
  { q with items := q.items ++ [request] }

def TransmissionQueue.dequeue (q : TransmissionQueue α) : Option α × TransmissionQueue α :=
  if q.paused then (none, q)
  else
    match q.items with
    | [] => (none, q)
    | x :: xs => (some x, { q with items := xs })

def TransmissionQueue.pause (q : TransmissionQueue α) : TransmissionQueue α :=
  { q with paused := true }

def TransmissionQueue.resume (q : TransmissionQueue α) : TransmissionQueue α :=
  { q with paused := false }

def TransmissionQueue.enqueueAll (q : TransmissionQueue α) (rs : List α) : TransmissionQueue α :=
  rs.foldl TransmissionQueue.enqueue q

def TransmissionQueue.dequeueN : TransmissionQueue α → Nat → List (Option α) × TransmissionQueue α
  | q, 0 => ([], q)
  | q, k+1 =>
    let r := q.dequeue
    let rest := dequeueN r.2 k
    (r.1 :: rest.1, rest.2)

/-! ## Worker error handling (`TransmissionWorker`)

`_process_request` catches `(EncodingError, ConfigurationError,
TransmissionError)` and then `Exception`, routing both to
`_handle_error`; `_handle_error` always marks the request failed, logs
and emits, but performs the disconnect/pause block only for
`isinstance(exc, TransmissionError)`. -/

inductive WorkerExc
  | encodingError
  | configurationError
  | transmissionError
  | unknown
deriving DecidableEq

structure HandleErrorEffects where
  statusFailed : Bool
  hackrfMarkedDisconnected : Bool
  sdrDisconnectCalled : Bool
  queuePaused : Bool
deriving DecidableEq

def isTransmissionErrorExc : WorkerExc → Bool
  | .transmissionError => true
  | _ => false

def handle_error (exc : WorkerExc) : HandleErrorEffects :=
  { statusFailed := true
    hackrfMarkedDisconnected := isTransmissionErrorExc exc
    sdrDisconnectCalled := isTransmissionErrorExc exc
    queuePaused := isTransmissionErrorExc exc }

/-- Effects of `_process_request` when the processing of a request raises
`exc`: every exception kind, known or unknown, reaches `_handle_error`. -/
def process_request_on_exc (exc : WorkerExc) : HandleErrorEffects := handle_error exc

/-! ## Helper theorems on bits -/

theorem testBit_false_of_lt_le {x m i : Nat} (hx : x < 2 ^ m) (h : m ≤ i) :
    x.testBit i = false :=
  Nat.testBit_lt_two_pow (lt_of_lt_of_le hx (Nat.pow_le_pow_right (by norm_num) h))

theorem lt_two_pow_of_high_testBit_false {x n : Nat}
    (h : ∀ i, n ≤ i → x.testBit i = false) : x < 2 ^ n := by
  have hx : x = x % 2 ^ n := by
    apply Nat.eq_of_testBit_eq
    intro i
    rw [Nat.testBit_mod_two_pow]
    by_cases hi : i < n
    · simp [hi]
    · simp [hi, h i (Nat.le_of_not_lt hi)]
  rw [hx]
  exact Nat.mod_lt _ (Nat.pos_pow_of_pos n (by norm_num))

/-- XORing a value that lives entirely below bit 10 commutes with the BCH
division loop: the loop only inspects bits `≥ 10` and only XORs shifted
copies of the generator, which never reach below bit 0 of the low part. -/
theorem bchReduce_xor_low (k : Nat) (x low : Nat) (hlow : low < 2 ^ 10) :
    bchReduce (x ^^^ low) k = bchReduce x k ^^^ low := by
  induction k generalizing x with
  | zero => rfl
  | succ k ih =>
    have hbit : (x ^^^ low).testBit (k + 10) = x.testBit (k + 10) := by
      rw [Nat.testBit_xor,
        testBit_false_of_lt_le hlow (by omega : 10 ≤ k + 10), Bool.xor_false]
    rw [bchReduce, bchReduce, hbit]
    by_cases hb : x.testBit (k + 10)
    · simp only [hb, if_true]
      have hassoc : (x ^^^ low) ^^^ (BCH_GENERATOR <<< k) =
          (x ^^^ BCH_GENERATOR <<< k) ^^^ low := by
        rw [Nat.xor_assoc, Nat.xor_comm low, ← Nat.xor_assoc]
      rw [hassoc]
      exact ih _
    · simp only [hb, if_false]
      exact ih _

theorem bchReduce_lt (k : Nat) (x : Nat) (hx : x < 2 ^ (10 + k)) :
    bchReduce x k < 2 ^ 10 := by
  induction k generalizing x with
  | zero => simpa using hx
  | succ k ih =>
    rw [bchReduce]
    apply ih
    by_cases hb : x.testBit (k + 10)
    · simp only [hb, if_true]
      apply lt_two_pow_of_high_testBit_false
      intro i hi
      rw [Nat.testBit_xor]
      rcases Nat.eq_or_lt_of_le hi with hlt | hlt
      · have hi2 : i = k + 10 := by omega
        subst hi2
        have hG : (BCH_GENERATOR <<< k).testBit (k + 10) = true := by
          rw [Nat.testBit_shiftLeft]
          norm_num
          decide
        rw [hb, hG]
        rfl
      · have h1 : x.testBit i = false :=
          testBit_false_of_lt_le hx (by omega)
        have h2 : (BCH_GENERATOR <<< k).testBit i = false := by
          apply testBit_false_of_lt_le (m := k + 11) _ (by omega)
          rw [Nat.shiftLeft_eq]
          calc BCH_GENERATOR * 2 ^ k < 2 ^ 11 * 2 ^ k := by
                have hG11 : BCH_GENERATOR < 2 ^ 11 := by decide
                exact (Nat.mul_lt_mul_right (Nat.pos_pow_of_pos k (by norm_num))).mpr hG11
            _ = 2 ^ (k + 11) := by ring
        rw [h1, h2]
        rfl
    · simp only [hb, if_false]
      rw [Bool.not_eq_true] at hb
      apply lt_two_pow_of_high_testBit_false
      intro i hi
      rcases Nat.eq_or_lt_of_le hi with hlt | hlt
      · have hi2 : i = k + 10 := by omega
        subst hi2
        exact hb
      · exact testBit_false_of_lt_le hx (by omega)

/-- ORing a value below `2^k` into a `k`-shifted word is the same as XOR:
the two operands occupy disjoint bit positions. -/
theorem shiftLeft_or_low_eq_xor {x p k : Nat} (hp : p < 2 ^ k) :
    (x <<< k) ||| p = (x <<< k) ^^^ p := by
  apply Nat.eq_of_testBit_eq
  intro i
  rw [Nat.testBit_or, Nat.testBit_xor]
  by_cases hi : i < k
  · have hx : (x <<< k).testBit i = false := by
      rw [Nat.testBit_shiftLeft]
      simp [Nat.not_le.mpr hi]
    rw [hx]
    cases p.testBit i <;> rfl
  · have hp' : p.testBit i = false :=
      testBit_false_of_lt_le hp (Nat.le_of_not_lt hi)
    rw [hp']
    cases (x <<< k).testBit i <;> rfl

/-- Core BCH fact: for any 21-bit data word, the 31-bit word
`(data << 10) | bch_parity(data)` has syndrome 0 (it is divisible by the
generator polynomial over GF(2)). -/
theorem syndrome32_data_parity (data : Nat) (hd : data < 2 ^ 21) :
    syndrome32 ((data <<< 10) ||| calculate_bch_parity data 21) = 0 := by
  have hshift : data <<< 10 < 2 ^ 31 := by
    rw [Nat.shiftLeft_eq]
    calc data * 2 ^ 10 < 2 ^ 21 * 2 ^ 10 :=
          (Nat.mul_lt_mul_right (Nat.pos_pow_of_pos 10 (by norm_num))).mpr hd
      _ = 2 ^ 31 := by norm_num
  have hR : bchReduce (data <<< 10) 21 < 2 ^ 10 :=
    bchReduce_lt 21 _ (by simpa using hshift)
  have hpar : calculate_bch_parity data 21 = bchReduce (data <<< 10) 21 := by
    unfold calculate_bch_parity
    have h1023 : (0x3FF : Nat) = 2 ^ 10 - 1 := by norm_num
    rw [h1023, Nat.and_pow_two_sub_one_eq_mod, Nat.mod_eq_of_lt hR]
  rw [hpar, shiftLeft_or_low_eq_xor hR]
  unfold syndrome32
  rw [bchReduce]
  have hb : ((data <<< 10) ^^^ bchReduce (data <<< 10) 21).testBit (21 + 10) = false := by
    apply testBit_false_of_lt_le (m := 31) _ (by norm_num)
    exact Nat.xor_lt_two_pow hshift
      (lt_of_lt_of_le hR (Nat.pow_le_pow_right (by norm_num) (by norm_num)))
  rw [hb, if_neg (by simp)]
  rw [bchReduce_xor_low 21 _ _ hR]
  exact Nat.xor_self _

theorem address_data_lt (ric : Nat) :
    ((((ric >>> 3) &&& 0x3FFFF) <<< 3) ||| ((ric &&& 0x3) <<< 1)) ||| 0 < 2 ^ 21 := by
  rw [Nat.or_zero]
  apply Nat.or_lt_two_pow
  · rw [Nat.shiftLeft_eq]
    have h1 : (ric >>> 3) &&& 0x3FFFF ≤ 0x3FFFF := Nat.and_le_right
    calc ((ric >>> 3) &&& 0x3FFFF) * 2 ^ 3 ≤ 0x3FFFF * 2 ^ 3 :=
          Nat.mul_le_mul_right _ h1
      _ < 2 ^ 21 := by norm_num
  · rw [Nat.shiftLeft_eq]
    have h1 : ric &&& 0x3 ≤ 0x3 := Nat.and_le_right
    calc (ric &&& 0x3) * 2 ^ 1 ≤ 0x3 * 2 ^ 1 := Nat.mul_le_mul_right _ h1
      _ < 2 ^ 21 := by norm_num

/-! ## Popcount helpers -/

theorem or_one_eq_self_of_testBit {x : Nat} (h : x.testBit 0 = true) :
    x ||| 1 = x := by
  apply Nat.eq_of_testBit_eq
  intro i
  rw [Nat.testBit_or]
  cases i with
  | zero => rw [h]; rfl
  | succ i =>
    have h1 : (1 : Nat).testBit (i + 1) = false :=
      testBit_false_of_lt_le (m := 1) (by norm_num) (by omega)
    rw [h1, Bool.or_false]

theorem countOnes32_or_one {x : Nat} (h : x.testBit 0 = false) :
    countOnes32 (x ||| 1) = countOnes32 x + 1 := by
  unfold countOnes32
  rw [show (32 : Nat) = 31 + 1 from rfl, List.range_succ_eq_map]
  simp only [List.map_cons, List.sum_cons, List.map_map]
  have h0 : (x ||| 1).testBit 0 = true := by
    rw [Nat.testBit_or, h]
    rfl
  have htail : ∀ i : Nat, (x ||| 1).testBit (i + 1) = x.testBit (i + 1) := by
    intro i
    rw [Nat.testBit_or,
      testBit_false_of_lt_le (x := 1) (m := 1) (by norm_num) (by omega : 1 ≤ i + 1),
      Bool.or_false]
  have hmap : List.map ((fun i => if (x ||| 1).testBit i then 1 else 0) ∘ Nat.succ)
      (List.range 31) =
      List.map ((fun i => if x.testBit i then 1 else 0) ∘ Nat.succ) (List.range 31) := by
    apply List.map_congr_left
    intro a _
    simp [Function.comp, htail a]
  rw [h0, hmap, h]
  simp [Nat.add_comm]

/-! ## Claim C1 -/

/-- C1: The 32-bit address codeword generated for RIC 1234567 equals
`0x4B5A1A25`, with intermediate values address = 154320, function bits = 3,
21-bit data field = `0x12D686`, BCH parity = `0x224`, and the even-parity
bit ORed into bit 0 of the 31-bit word `(d << 10) | p` with no left shift. -/
theorem C1_address_codeword_ric_1234567 :
    generate_address_codeword 1234567 = 0x4B5A1A25 ∧
    (1234567 >>> 3) &&& 0x3FFFF = 154320 ∧
    1234567 &&& 0x3 = 3 ∧
    ((154320 <<< 3) ||| (3 <<< 1)) ||| 0 = 0x12D686 ∧
    calculate_bch_parity 0x12D686 21 = 0x224 ∧
    generate_address_cw31 1234567 = (0x12D686 <<< 10) ||| 0x224 ∧
    generate_address_codeword 1234567 =
      generate_address_cw31 1234567 ||| calculate_even_parity (generate_address_cw31 1234567) := by
  exact ⟨by decide, by decide, by decide, by decide, by decide, by decide, by decide⟩

/-! ## Claim C2 -/

/-- C2 (counterexample): the encoder's 32-bit codewords are not all
BCH-divisible with even popcount.  The address codeword for RIC 1234567
has nonzero syndrome modulo `0x769` (the even bit was ORed on top of the
parity field), the address codeword for RIC 8 has odd popcount, and the
idle codeword `0x7A89C197` also has nonzero syndrome as a 32-bit word. -/
theorem C2_counterexample :
    syndrome32 (generate_address_codeword 1234567) ≠ 0 ∧
    countOnes32 (generate_address_codeword 8) % 2 ≠ 0 ∧
    countOnes32 IDLE_CODEWORD % 2 = 0 ∧
    syndrome32 IDLE_CODEWORD ≠ 0 := by
  exact ⟨by decide, by decide, by decide, by decide⟩

/-- C2 (amended): for every RIC below 2^21, the 31-bit pre-parity word
`(data << 10) | bch_parity` is divisible by the generator `0x769`
(syndrome 0), and the full 32-bit address codeword — the 31-bit word with
the even bit ORed into bit 0 — has even popcount exactly when the even
bit does not collide with an already-set bit 0, i.e. unless the 31-bit
word has both odd popcount and an odd BCH parity field. -/
theorem countOnes32_or_even_parity (w : Nat) :
    countOnes32 (w ||| calculate_even_parity w) % 2 = 0 ↔
      ¬ (w.testBit 0 = true ∧ countOnes32 w % 2 = 1) := by
  have heven : calculate_even_parity w = countOnes32 w % 2 := Nat.and_one_is_mod _
  rw [heven]
  rcases (by omega : countOnes32 w % 2 = 0 ∨ countOnes32 w % 2 = 1) with hc | hc
  · rw [hc, Nat.or_zero]
    constructor
    · intro _ hand
      rcases hand with ⟨-, h1⟩
      omega
    · intro _
      exact hc
  · rw [hc]
    cases hb : w.testBit 0 with
    | true =>
      rw [or_one_eq_self_of_testBit hb]
      constructor
      · intro h0
        omega
      · intro hno
        exact absurd ⟨rfl, rfl⟩ hno
    | false =>
      rw [countOnes32_or_one hb]
      constructor
      · intro _ hand
        exact absurd hand.1 Bool.false_ne_true
      · intro _
        omega

theorem C2_bch_clean_and_even_parity (r : Nat) (hr : r < 2 ^ 21) :
    syndrome32 (generate_address_cw31 r) = 0 ∧
    (countOnes32 (generate_address_codeword r) % 2 = 0 ↔
      ¬ ((generate_address_cw31 r).testBit 0 = true ∧
          countOnes32 (generate_address_cw31 r) % 2 = 1)) := by
  constructor
  · exact syndrome32_data_parity _ (address_data_lt r)
  · have hcw : generate_address_codeword r =
        generate_address_cw31 r ||| calculate_even_parity (generate_address_cw31 r) := rfl
    rw [hcw]
    exact countOnes32_or_even_parity _

/-- C2 (witness): the amended statement instantiated at RIC 1234567. -/
theorem C2_bch_clean_and_even_parity_witness :
    1234567 < 2 ^ 21 ∧
    (syndrome32 (generate_address_cw31 1234567) = 0 ∧
      (countOnes32 (generate_address_codeword 1234567) % 2 = 0 ↔
        ¬ ((generate_address_cw31 1234567).testBit 0 = true ∧
            countOnes32 (generate_address_cw31 1234567) % 2 = 1))) :=
  ⟨by decide, C2_bch_clean_and_even_parity 1234567 (by decide)⟩

/-! ## Claim C3 -/

theorem charBits_eq_spec (c : Nat) : charBits c = specCharBits c := by
  unfold charBits specCharBits
  apply List.map_congr_left
  intro a ha
  have ha7 : a < 7 := List.mem_range.mp ha
  have h127 : c &&& 0x7F = c % 2 ^ 7 := by
    have : (0x7F : Nat) = 2 ^ 7 - 1 := by norm_num
    rw [this, Nat.and_pow_two_sub_one_eq_mod]
  rw [Nat.and_one_is_mod, Nat.and_one_is_mod, Nat.shiftRight_eq_div_pow,
    Nat.shiftRight_eq_div_pow, h127]
  interval_cases a <;> norm_num <;> omega

theorem messageCharBits_eq_spec (msg : List Nat) :
    messageCharBits msg = msg.flatMap specCharBits := by
  unfold messageCharBits
  induction msg with
  | nil => rfl
  | cons c rest ih => simp [List.flatMap_cons, ih, charBits_eq_spec]

theorem specPadLen_lt (n : Nat) : specPadLen n < 20 := by
  unfold specPadLen
  omega

theorem innerPad_eq (shifts : List Nat) : ∀ bits : List Nat, bits.length % 20 ≠ 0 →
    innerPad bits shifts =
      bits ++ (shifts.map fun s => (0x20 >>> s) &&& 1).take (specPadLen bits.length) := by
  induction shifts with
  | nil =>
    intro bits h
    simp [innerPad]
  | cons s rest ih =>
    intro bits h
    rw [innerPad]
    by_cases hb : (bits ++ [(0x20 >>> s) &&& 1]).length % 20 = 0
    · rw [if_pos hb]
      have hlen : (bits ++ [(0x20 >>> s) &&& 1]).length = bits.length + 1 := by simp
      have h1 : specPadLen bits.length = 1 := by
        unfold specPadLen
        rw [hlen] at hb
        omega
      rw [h1, List.map_cons, List.take_succ_cons, List.take_zero]
    · rw [if_neg hb]
      rw [ih _ hb]
      have hlen : (bits ++ [(0x20 >>> s) &&& 1]).length = bits.length + 1 := by simp
      have h2 : specPadLen (bits ++ [(0x20 >>> s) &&& 1]).length
          = specPadLen bits.length - 1 := by
        unfold specPadLen
        rw [hlen] at hb ⊢
        omega
      have h3 : 1 ≤ specPadLen bits.length := by
        unfold specPadLen
        rw [hlen] at hb
        omega
      rw [h2]
      have h4 : specPadLen bits.length = (specPadLen bits.length - 1) + 1 := by omega
      rw [List.map_cons]
      conv_rhs => rw [h4]
      rw [List.take_succ_cons]
      simp

theorem spaceBits_length : spaceBits.length = 7 := rfl

theorem padBits_eq (fuel : Nat) : ∀ bits : List Nat, specPadLen bits.length ≤ 7 * fuel →
    padBits fuel bits =
      bits ++ (spaceBits ++ spaceBits ++ spaceBits).take (specPadLen bits.length) := by
  induction fuel with
  | zero =>
    intro bits h
    have h0 : specPadLen bits.length = 0 := by omega
    rw [padBits, h0]
    simp
  | succ fuel ih =>
    intro bits h
    rw [padBits]
    by_cases h0 : bits.length % 20 = 0
    · rw [if_pos h0]
      have hz : specPadLen bits.length = 0 := by
        unfold specPadLen
        omega
      rw [hz]
      simp
    · rw [if_neg h0]
      have hmap : (List.range 7).map (fun s => (0x20 >>> s) &&& 1) = spaceBits := rfl
      rw [innerPad_eq (List.range 7) bits h0, hmap]
      by_cases hle : specPadLen bits.length ≤ 7
      · have htake : (spaceBits.take (specPadLen bits.length)).length
            = specPadLen bits.length := by
          rw [List.length_take, spaceBits_length]
          omega
        have hlen2 : (bits ++ spaceBits.take (specPadLen bits.length)).length
            = bits.length + specPadLen bits.length := by
          rw [List.length_append, htake]
        have hnew : specPadLen (bits ++ spaceBits.take (specPadLen bits.length)).length = 0 := by
          rw [hlen2]
          unfold specPadLen
          unfold specPadLen at hle
          omega
        rw [ih _ (by omega)]
        rw [hnew, List.take_zero, List.append_nil]
        have hfirst : (spaceBits ++ spaceBits ++ spaceBits).take (specPadLen bits.length)
            = spaceBits.take (specPadLen bits.length) := by
          rw [List.append_assoc]
          exact List.take_append_of_le_length (by rw [spaceBits_length]; omega)
        rw [hfirst]
      · have hsat : spaceBits.take (specPadLen bits.length) = spaceBits := by
          apply List.take_of_length_le
          rw [spaceBits_length]
          omega
        rw [hsat]
        have hlen2 : (bits ++ spaceBits).length = bits.length + 7 := by
          rw [List.length_append, spaceBits_length]
        have hnew : specPadLen (bits ++ spaceBits).length
            = specPadLen bits.length - 7 := by
          rw [hlen2]
          unfold specPadLen
          unfold specPadLen at hle
          omega
        rw [ih _ (by omega)]
        rw [hnew]
        have hlt : specPadLen bits.length < 20 := specPadLen_lt _
        have hsplit : (spaceBits ++ spaceBits ++ spaceBits).take (specPadLen bits.length)
            = spaceBits ++ (spaceBits ++ spaceBits).take (specPadLen bits.length - 7) := by
          rw [List.append_assoc, List.take_append_eq_append_take, hsat]
          rw [spaceBits_length]
        rw [hsplit]
        have htail : (spaceBits ++ spaceBits ++ spaceBits).take (specPadLen bits.length - 7)
            = (spaceBits ++ spaceBits).take (specPadLen bits.length - 7) := by
          apply List.take_append_of_le_length
          rw [List.length_append, spaceBits_length]
          omega
        rw [htail, List.append_assoc]

/-- C3: for every printable-ASCII message, the bit sequence built before
FEC is the LSB-first 7-bit characters followed by LSB-first space bits
stopped exactly at the next multiple-of-20 boundary, and each 20-bit block
is packed MSB-first with flag bit 1 as the LSB of the 21-bit data field. -/
theorem C3_alphanumeric_bitstream (msg : List Nat)
    (hmsg : ∀ c ∈ msg, 0x20 ≤ c ∧ c ≤ 0x7E) :
    encode_alphanumeric_bits msg = alpha_bits_spec msg ∧
    encode_alphanumeric msg =
      (toBlocks (alpha_bits_spec msg).length (alpha_bits_spec msg)).map
        (fun block => message_codeword (packMSB block)) := by
  have hpad : encode_alphanumeric_bits msg = alpha_bits_spec msg := by
    unfold encode_alphanumeric_bits alpha_bits_spec
    rw [messageCharBits_eq_spec]
    exact padBits_eq 20 _ (by have := specPadLen_lt (msg.flatMap specCharBits).length; omega)
  refine ⟨hpad, ?_⟩
  unfold encode_alphanumeric
  rw [hpad]

/-- C3 (witness): the bitstream law instantiated at the message "TEST". -/
theorem C3_alphanumeric_bitstream_witness :
    (∀ c ∈ [84, 69, 83, 84], 0x20 ≤ c ∧ c ≤ 0x7E) ∧
    (encode_alphanumeric_bits [84, 69, 83, 84] = alpha_bits_spec [84, 69, 83, 84] ∧
      encode_alphanumeric [84, 69, 83, 84] =
        (toBlocks (alpha_bits_spec [84, 69, 83, 84]).length (alpha_bits_spec [84, 69, 83, 84])).map
          (fun block => message_codeword (packMSB block))) :=
  ⟨by decide, C3_alphanumeric_bitstream [84, 69, 83, 84] (by decide)⟩

/-! ## Claim C4 -/

theorem fillSlots_zero (slots : List Nat) : ∀ rem : List Nat,
    fillSlots slots 0 rem =
      (rem.take slots.length ++ slots.drop rem.length, rem.drop slots.length) := by
  induction slots with
  | nil =>
    intro rem
    simp [fillSlots]
  | cons s ss ih =>
    intro rem
    cases rem with
    | nil => simp [fillSlots]
    | cons c cs =>
      rw [fillSlots]
      simp [ih cs]

theorem fillSlots_skip (xs : List Nat) : ∀ ys rem : List Nat,
    fillSlots (xs ++ ys) xs.length rem =
      (xs ++ (fillSlots ys 0 rem).1, (fillSlots ys 0 rem).2) := by
  induction xs with
  | nil =>
    intro ys rem
    simp
  | cons x xs ih =>
    intro ys rem
    rw [List.cons_append, List.length_cons, fillSlots]
    simp [ih ys rem]

theorem set_replicate (b : Nat) : ∀ (i n : Nat) (a : Nat), i < n →
    (List.replicate n a).set i b =
      List.replicate i a ++ b :: List.replicate (n - i - 1) a := by
  intro i
  induction i with
  | zero =>
    intro n a hn
    cases n with
    | zero => omega
    | succ m => simp [List.replicate_succ]
  | succ i ih =>
    intro n a hn
    cases n with
    | zero => omega
    | succ m =>
      rw [List.replicate_succ, List.set_cons_succ, ih m a (by omega)]
      simp [List.replicate_succ]

theorem chunk16_nil (fuel : Nat) : chunk16 fuel [] = [] := by
  cases fuel <;> rfl

theorem chunk16_fuel_eq (fuel : Nat) : ∀ (g : Nat) (l : List Nat),
    l.length ≤ fuel → l.length ≤ g → chunk16 fuel l = chunk16 g l := by
  induction fuel with
  | zero =>
    intro g l h1 _
    have hnil : l = [] := List.eq_nil_of_length_eq_zero (by omega)
    subst hnil
    rw [chunk16_nil, chunk16_nil]
  | succ fuel ih =>
    intro g l h1 h2
    cases l with
    | nil => rw [chunk16_nil, chunk16_nil]
    | cons x xs =>
      cases g with
      | zero => simp at h2
      | succ g =>
        rw [chunk16, chunk16]
        have hlen : ((x :: xs).drop 16).length = (x :: xs).length - 16 := by
          rw [List.length_drop]
        rw [ih g _ (by simp at h1 hlen ⊢; omega) (by simp at h2 hlen ⊢; omega)]

theorem batch_loop_rest (addrPos addrCw : Nat) (fuel : Nat) : ∀ rem : List Nat,
    rem ≠ [] → rem.length ≤ fuel →
    generate_batch_loop fuel false addrPos addrCw rem =
      (chunk16 rem.length rem).flatMap batch_spec_rest := by
  induction fuel with
  | zero =>
    intro rem hne hlen
    exact absurd (List.eq_nil_of_length_eq_zero (by omega)) hne
  | succ fuel ih =>
    intro rem hne hlen
    obtain ⟨x, xs, rfl⟩ : ∃ y ys, rem = y :: ys := by
      cases rem with
      | nil => exact absurd rfl hne
      | cons y ys => exact ⟨y, ys, rfl⟩
    rw [generate_batch_loop]
    simp only [Bool.false_eq_true, ite_false]
    rw [fillSlots_zero]
    simp only
    rw [List.length_replicate, List.drop_replicate, List.length_cons]
    simp only [List.length_cons] at hlen
    by_cases h16 : xs.length + 1 ≤ 16
    · have hdrop : (x :: xs).drop 16 = [] := List.drop_eq_nil_of_le (by simp; omega)
      rw [hdrop]
      simp only [List.isEmpty_nil, ite_true]
      have htake : (x :: xs).take 16 = x :: xs := List.take_of_length_le (by simp; omega)
      rw [htake, chunk16, hdrop, chunk16_nil]
      simp [batch_spec_rest]
      rw [List.take_of_length_le (by omega : xs.length ≤ 15),
        Nat.min_eq_right (by omega : xs.length ≤ 15)]
    · have hdl : ((x :: xs).drop 16).length = xs.length + 1 - 16 := by
        rw [List.length_drop, List.length_cons]
      have hne2 : (x :: xs).drop 16 ≠ [] := by
        intro hcontra
        rw [hcontra] at hdl
        simp at hdl
        omega
      have hie : ((x :: xs).drop 16).isEmpty = false := by
        cases hd : (x :: xs).drop 16 with
        | nil => exact absurd hd hne2
        | cons y ys => rfl
      rw [hie]
      simp only [Bool.false_eq_true, ite_false]
      rw [ih _ hne2 (by omega)]
      rw [chunk16, List.flatMap_cons]
      rw [chunk16_fuel_eq xs.length ((x :: xs).drop 16).length _ (by omega) (by omega)]
      have hz : 16 - (xs.length + 1) = 0 := by omega
      have htl : ((x :: xs).take 16).length = 16 := by
        rw [List.length_take, List.length_cons]
        omega
      rw [hz]
      simp [batch_spec_rest, htl]
      omega

/-- C4: for every RIC and message codeword list, the assembled transmission
is 18 preamble words emitted once, then one or more sync-led 16-slot
batches; the address codeword sits exactly at slot `(ric & 0x7) * 2` of the
first batch with idles before it, message codewords fill subsequent slots
in order, later batches fill from slot 0 without repeating the address,
and all unused trailing slots are idle. -/
theorem C4_batch_assembly (ric addressCw : Nat) (messageCws : List Nat) :
    generate_batch ric addressCw messageCws = transmission_spec ric addressCw messageCws := by
  simp only [generate_batch, transmission_spec]
  rw [List.append_assoc]
  congr 1
  have ha14 : (ric &&& 0x7) * 2 ≤ 14 := by
    have h7 : ric &&& 0x7 ≤ 0x7 := Nat.and_le_right
    omega
  simp only [generate_batch_loop, if_pos rfl]
  simp only [if_true]
  rw [set_replicate addressCw ((ric &&& 0x7) * 2) 16 IDLE_CODEWORD (by omega)]
  have h15 : 16 - (ric &&& 0x7) * 2 - 1 = 15 - (ric &&& 0x7) * 2 := by omega
  rw [h15]
  have hshape : List.replicate ((ric &&& 0x7) * 2) IDLE_CODEWORD ++
      addressCw :: List.replicate (15 - (ric &&& 0x7) * 2) IDLE_CODEWORD
      = (List.replicate ((ric &&& 0x7) * 2) IDLE_CODEWORD ++ [addressCw]) ++
        List.replicate (15 - (ric &&& 0x7) * 2) IDLE_CODEWORD := by
    simp
  have hxs : (List.replicate ((ric &&& 0x7) * 2) IDLE_CODEWORD ++ [addressCw]).length
      = (ric &&& 0x7) * 2 + 1 := by simp
  rw [hshape, ← hxs, fillSlots_skip]
  rw [fillSlots_zero]
  simp only
  rw [List.length_replicate, List.drop_replicate]
  by_cases hrest : messageCws.drop (15 - (ric &&& 0x7) * 2) = []
  · rw [hrest]
    simp only [List.isEmpty_nil, ite_true]
    rw [List.length_nil, chunk16_nil]
    simp [batch_spec_first, List.append_assoc]
  · have hie : (messageCws.drop (15 - (ric &&& 0x7) * 2)).isEmpty = false := by
      cases hd : messageCws.drop (15 - (ric &&& 0x7) * 2) with
      | nil => exact absurd hd hrest
      | cons y ys => rfl
    rw [hie]
    simp only [Bool.false_eq_true, ite_false]
    rw [batch_loop_rest ((ric &&& 0x7) * 2) addressCw messageCws.length _ hrest
      (by rw [List.length_drop]; omega)]
    simp [batch_spec_first, List.append_assoc]

/-! ## Claim C5 -/

theorem ratFloor_eq_intFloor (q : ℚ) : (Rat.floor q : ℤ) = ⌊q⌋ := rfl

theorem modCount_emitted (err : ℚ) (he0 : 0 ≤ err) (he1 : err < 1) (base : ℤ) :
    ∀ (bits : List Bool) (acc : ℚ), 0 ≤ acc → acc < 1 →
    (modCount bits err base acc).1 = base * bits.length + ⌊acc + err * bits.length⌋ := by
  intro bits
  induction bits with
  | nil =>
    intro acc h0 h1
    simp only [modCount, List.length_nil, Nat.cast_zero, mul_zero, add_zero, Int.cast_zero]
    rw [(Int.floor_eq_zero_iff.mpr ⟨h0, h1⟩ : ⌊acc⌋ = 0)]
    simp
  | cons b bs ih =>
    intro acc h0 h1
    rw [modCount]
    simp only
    by_cases hge : 1 ≤ acc + err
    · rw [if_pos hge, if_pos hge]
      have ih2 := ih (acc + err - 1) (by linarith) (by linarith)
      rw [ih2]
      have hfl : ⌊acc + err - 1 + err * (bs.length : ℚ)⌋
          = ⌊acc + err * ((bs.length : ℚ) + 1)⌋ - 1 := by
        have harg : acc + err - 1 + err * (bs.length : ℚ)
            = (acc + err * ((bs.length : ℚ) + 1)) + (-1 : ℤ) := by
          push_cast
          ring
        rw [harg, Int.floor_add_int]
        omega
      rw [hfl]
      rw [List.length_cons]
      push_cast
      ring
    · rw [if_neg hge, if_neg hge]
      have ih2 := ih (acc + err) (by linarith) (by linarith)
      rw [ih2]
      have harg : acc + err + err * (bs.length : ℚ) = acc + err * ((bs.length : ℚ) + 1) := by
        ring
      rw [harg, List.length_cons]
      push_cast
      ring

theorem pyRound_floor_or (q : ℚ) : pyRound q = ⌊q⌋ ∨ pyRound q = ⌊q⌋ + 1 := by
  unfold pyRound
  simp only [ratFloor_eq_intFloor]
  split_ifs
  · exact Or.inl rfl
  · exact Or.inr rfl
  · exact Or.inl rfl
  · exact Or.inr rfl

/-- C5: the Bresenham-style accumulator of the FSK modulator, with base
`floor(Fs/B)` samples per bit plus one extra sample whenever the
fractional accumulator reaches 1 and with any extra trailing slot
trimmed, emits a total of `round(Fs * N / B)` samples, within minus one
sample when the accumulated fraction falls short of the rounding. -/
theorem C5_fsk_sample_count (sampleRate baud : Nat) (bits : List Bool) (hbaud : 0 < baud) :
    modulate_fsk_len sampleRate baud bits
        = pyRound (spb sampleRate baud * (bits.length : ℚ)) ∨
    modulate_fsk_len sampleRate baud bits + 1
        = pyRound (spb sampleRate baud * (bits.length : ℚ)) := by
  have hfl : (Rat.floor (spb sampleRate baud) : ℚ) = ((⌊spb sampleRate baud⌋ : ℤ) : ℚ) := by
    rw [ratFloor_eq_intFloor]
  have herr0 : 0 ≤ spb sampleRate baud - (Rat.floor (spb sampleRate baud) : ℚ) := by
    rw [hfl]
    have := Int.floor_le (spb sampleRate baud)
    linarith
  have herr1 : spb sampleRate baud - (Rat.floor (spb sampleRate baud) : ℚ) < 1 := by
    rw [hfl]
    have := Int.lt_floor_add_one (spb sampleRate baud)
    linarith
  have hemit := modCount_emitted _ herr0 herr1 (Rat.floor (spb sampleRate baud)) bits 0
    (le_refl 0) (by norm_num)
  have hemit2 : (modCount bits (spb sampleRate baud - (Rat.floor (spb sampleRate baud) : ℚ))
      (Rat.floor (spb sampleRate baud)) 0).1
      = ⌊spb sampleRate baud * (bits.length : ℚ)⌋ := by
    rw [hemit]
    have harg : (0 : ℚ) + (spb sampleRate baud - (Rat.floor (spb sampleRate baud) : ℚ))
        * (bits.length : ℚ)
        = spb sampleRate baud * (bits.length : ℚ)
            + (-(Rat.floor (spb sampleRate baud) * (bits.length : ℤ)) : ℤ) := by
      push_cast [hfl]
      ring
    rw [harg, Int.floor_add_int]
    push_cast [ratFloor_eq_intFloor]
    ring
  unfold modulate_fsk_len
  simp only
  rw [hemit2]
  rcases pyRound_floor_or (spb sampleRate baud * (bits.length : ℚ)) with hpr | hpr
  · rw [hpr]
    simp
  · rw [hpr]
    rw [if_neg (by omega)]
    rw [min_eq_left (by omega)]
    omega

/-- C5 (witness): sample-count law at `Fs = 3`, `B = 2`, three input bits. -/
theorem C5_fsk_sample_count_witness :
    0 < 2 ∧
    (modulate_fsk_len 3 2 [true, true, true]
        = pyRound (spb 3 2 * (([true, true, true] : List Bool).length : ℚ)) ∨
      modulate_fsk_len 3 2 [true, true, true] + 1
        = pyRound (spb 3 2 * (([true, true, true] : List Bool).length : ℚ))) :=
  ⟨by decide, C5_fsk_sample_count 3 2 [true, true, true] (by decide)⟩

/-! ## Claim C6 -/

theorem encoder_validate_ok_iff (ric : List Char) :
    (encoder_validate_inputs ric [] "numeric" 1200 = Except.ok ()) ↔
      ((pyIsDigit ric && decide (1 ≤ ric.length) && decide (ric.length ≤ 7)) = true ∧
        strToNat ric ≤ 2097151) := by
  unfold encoder_validate_inputs
  by_cases h1 : (pyIsDigit ric && decide (1 ≤ ric.length) && decide (ric.length ≤ 7)) = true
  · rw [h1]
    by_cases h2 : strToNat ric ≤ 2097151
    · simp [h2, SUPPORTED_POCSAG_BAUD]
    · simp [h2]
  · rw [Bool.not_eq_true] at h1
    rw [h1]
    simp [h1]

/-- C6 (counterexample): request validation does not implement the spec
rule.  The one-digit RIC "1" satisfies the spec rule but is rejected by
`validate_ric_format`, while "9999999" is accepted by it despite
exceeding 2^21 - 1. -/
theorem C6_counterexample :
    validate_ric_format ['1'] = false ∧ spec_ric_rule ['1'] = true ∧
    validate_ric_format ['9', '9', '9', '9', '9', '9', '9'] = true ∧
    spec_ric_rule ['9', '9', '9', '9', '9', '9', '9'] = false := by
  exact ⟨by decide, by decide, by decide, by decide⟩

/-- C6 (amended): enqueue-time request validation accepts exactly the
seven-digit strings, with no range bound; it is the encoder's own input
validation that accepts exactly the RICs of the spec rule (digit strings
of length 1 to 7 whose value is at most 2,097,151). -/
theorem C6_ric_validation (ric : List Char) :
    (validate_ric_format ric = true ↔ (ric.length = 7 ∧ ric.all Char.isDigit = true)) ∧
    (encoder_validate_inputs ric [] "numeric" 1200 = Except.ok () ↔
      spec_ric_rule ric = true) := by
  constructor
  · simp [validate_ric_format]
  · rw [encoder_validate_ok_iff]
    unfold spec_ric_rule pyIsDigit
    simp only [Bool.and_eq_true, decide_eq_true_eq, Bool.not_eq_true', List.all_eq_true]
    constructor
    · intro h
      tauto
    · intro h
      have h1 : 1 ≤ ric.length := by tauto
      have hne : ric.isEmpty = false := by
        cases ric with
        | nil => simp at h1
        | cons c cs => rfl
      tauto

/-! ## Claim C7 -/

/-- C7 (counterexample): an 81-character alphanumeric message is rejected
by enqueue-time request validation with "Message exceeds allowed length" —
it is not accepted with a warning. -/
theorem C7_counterexample :
    validate_message_length (List.replicate 81 'A') "alphanumeric" = false ∧
    message_service_validate [['1', '2', '3', '4', '5', '6', '7']]
        (List.replicate 81 'A') "alphanumeric"
      = Except.error "Message exceeds allowed length" := by
  exact ⟨by decide, by rfl⟩

/-- C7 (amended): an alphanumeric message longer than 80 characters fails
`validate_message_length` — so `MessageService` rejects the request with
`ValueError` before it reaches the queue — while the encoder's own
validation merely warns: it accepts such a message whenever its
characters are printable, regardless of length. -/
theorem C7_long_message (text : List Char) (h : 80 < text.length) :
    validate_message_length text "alphanumeric" = false ∧
    encoder_warns_long text = true ∧
    ((∀ c ∈ text, 0x20 ≤ c.toNat ∧ c.toNat ≤ 0x7E) →
      encoder_validate_inputs ['1', '2', '3', '4', '5', '6', '7'] text "alphanumeric" 1200
        = Except.ok ()) := by
  refine ⟨?_, ?_, ?_⟩
  · unfold validate_message_length
    rw [if_pos rfl]
    simp
    omega
  · unfold encoder_warns_long
    simp [h]
  · intro hchars
    unfold encoder_validate_inputs
    have hric : (pyIsDigit ['1', '2', '3', '4', '5', '6', '7'] &&
        decide (1 ≤ (['1', '2', '3', '4', '5', '6', '7'] : List Char).length) &&
        decide ((['1', '2', '3', '4', '5', '6', '7'] : List Char).length ≤ 7)) = true := by
      decide
    rw [hric]
    have hrange : decide (strToNat ['1', '2', '3', '4', '5', '6', '7'] ≤ 2097151) = true := by
      decide
    rw [hrange]
    have hall : text.all (fun c => decide (0x20 ≤ c.toNat) && decide (c.toNat ≤ 0x7E)) = true := by
      rw [List.all_eq_true]
      intro c hc
      have := hchars c hc
      simp [this.1, this.2]
    simp [SUPPORTED_POCSAG_BAUD, hall]

/-- C7 (witness): the amended statement at an 81-character message. -/
theorem C7_long_message_witness :
    80 < (List.replicate 81 'A').length ∧
    (validate_message_length (List.replicate 81 'A') "alphanumeric" = false ∧
      encoder_warns_long (List.replicate 81 'A') = true ∧
      ((∀ c ∈ List.replicate 81 'A', 0x20 ≤ c.toNat ∧ c.toNat ≤ 0x7E) →
        encoder_validate_inputs ['1', '2', '3', '4', '5', '6', '7'] (List.replicate 81 'A')
            "alphanumeric" 1200 = Except.ok ())) :=
  ⟨by decide, C7_long_message (List.replicate 81 'A') (by decide)⟩

/-! ## Claim C8 -/

theorem enqueueAll_spec {α : Type} : ∀ (rs : List α) (q : TransmissionQueue α),
    (q.enqueueAll rs).items = q.items ++ rs ∧ (q.enqueueAll rs).paused = q.paused := by
  intro rs
  induction rs with
  | nil =>
    intro q
    simp [TransmissionQueue.enqueueAll]
  | cons r rest ih =>
    intro q
    have hstep := ih (q.enqueue r)
    unfold TransmissionQueue.enqueueAll at hstep ⊢
    rw [List.foldl_cons]
    refine ⟨?_, ?_⟩
    · rw [hstep.1]
      simp [TransmissionQueue.enqueue]
    · rw [hstep.2]
      rfl

theorem dequeueN_unpaused {α : Type} : ∀ (k : Nat) (items : List α), k ≤ items.length →
    TransmissionQueue.dequeueN ⟨items, false⟩ k
      = ((items.take k).map some, ⟨items.drop k, false⟩) := by
  intro k
  induction k with
  | zero =>
    intro items h
    simp [TransmissionQueue.dequeueN]
  | succ k ih =>
    intro items h
    cases items with
    | nil => simp at h
    | cons x xs =>
      rw [TransmissionQueue.dequeueN]
      have hdq : TransmissionQueue.dequeue (⟨x :: xs, false⟩ : TransmissionQueue α)
          = (some x, ⟨xs, false⟩) := by
        simp [TransmissionQueue.dequeue]
      rw [hdq]
      simp only
      rw [ih xs (by simpa using h)]
      simp

/-- C8: the transmission queue is FIFO.  Enqueuing `as` into an empty
queue stores them in order; `k` dequeues return the first `k` in that
order; pausing makes dequeue return `None` without removing anything
while enqueues still append; after resume, dequeuing returns all items in
the original FIFO order. -/
theorem C8_queue_fifo (α : Type) (as bs : List α) (k : Nat) (hk : k ≤ as.length) :
    (TransmissionQueue.enqueueAll (TransmissionQueue.empty α) as).items = as ∧
    ((TransmissionQueue.enqueueAll (TransmissionQueue.empty α) as).dequeueN k).1
      = (as.take k).map some ∧
    TransmissionQueue.dequeue
        ((TransmissionQueue.enqueueAll (TransmissionQueue.empty α) as).pause)
      = (none, (TransmissionQueue.enqueueAll (TransmissionQueue.empty α) as).pause) ∧
    (TransmissionQueue.enqueueAll
        ((TransmissionQueue.enqueueAll (TransmissionQueue.empty α) as).pause) bs).items
      = as ++ bs ∧
    (TransmissionQueue.enqueueAll
        ((TransmissionQueue.enqueueAll (TransmissionQueue.empty α) as).pause) bs).paused
      = true ∧
    ((TransmissionQueue.resume (TransmissionQueue.enqueueAll
        ((TransmissionQueue.enqueueAll (TransmissionQueue.empty α) as).pause) bs)).dequeueN
          (as ++ bs).length).1
      = (as ++ bs).map some := by
  have h1 := enqueueAll_spec as (TransmissionQueue.empty α)
  have hq : TransmissionQueue.enqueueAll (TransmissionQueue.empty α) as
      = ⟨as, false⟩ := by
    cases hE : TransmissionQueue.enqueueAll (TransmissionQueue.empty α) as with
    | mk i p =>
      rw [hE] at h1
      simp [TransmissionQueue.empty] at h1
      simp [h1.1, h1.2]
  rw [hq]
  have hpause : (⟨as, false⟩ : TransmissionQueue α).pause = ⟨as, true⟩ := rfl
  rw [hpause]
  have h2 := enqueueAll_spec bs (⟨as, true⟩ : TransmissionQueue α)
  have hq2 : TransmissionQueue.enqueueAll (⟨as, true⟩ : TransmissionQueue α) bs
      = ⟨as ++ bs, true⟩ := by
    cases hE : TransmissionQueue.enqueueAll (⟨as, true⟩ : TransmissionQueue α) bs with
    | mk i p =>
      rw [hE] at h2
      simp at h2
      simp [h2.1, h2.2]
  rw [hq2]
  have hresume : (⟨as ++ bs, true⟩ : TransmissionQueue α).resume = ⟨as ++ bs, false⟩ := rfl
  rw [hresume]
  refine ⟨rfl, ?_, ?_, rfl, rfl, ?_⟩
  · rw [dequeueN_unpaused k as hk]
  · simp [TransmissionQueue.dequeue]
  · rw [dequeueN_unpaused (as ++ bs).length (as ++ bs) (le_refl _)]
    simp

/-- C8 (witness): the FIFO law at a three-element queue with one further
enqueue while paused. -/
theorem C8_queue_fifo_witness :
    2 ≤ ([1, 2, 3] : List Nat).length ∧
    ((TransmissionQueue.enqueueAll (TransmissionQueue.empty Nat) [1, 2, 3]).items = [1, 2, 3] ∧
      ((TransmissionQueue.enqueueAll (TransmissionQueue.empty Nat) [1, 2, 3]).dequeueN 2).1
        = (([1, 2, 3] : List Nat).take 2).map some ∧
      TransmissionQueue.dequeue
          ((TransmissionQueue.enqueueAll (TransmissionQueue.empty Nat) [1, 2, 3]).pause)
        = (none, (TransmissionQueue.enqueueAll (TransmissionQueue.empty Nat) [1, 2, 3]).pause) ∧
      (TransmissionQueue.enqueueAll
          ((TransmissionQueue.enqueueAll (TransmissionQueue.empty Nat) [1, 2, 3]).pause) [4]).items
        = [1, 2, 3] ++ [4] ∧
      (TransmissionQueue.enqueueAll
          ((TransmissionQueue.enqueueAll (TransmissionQueue.empty Nat) [1, 2, 3]).pause) [4]).paused
        = true ∧
      ((TransmissionQueue.resume (TransmissionQueue.enqueueAll
          ((TransmissionQueue.enqueueAll (TransmissionQueue.empty Nat) [1, 2, 3]).pause) [4])).dequeueN
            (([1, 2, 3] ++ [4] : List Nat)).length).1
        = (([1, 2, 3] ++ [4] : List Nat)).map some) :=
  ⟨by decide, C8_queue_fifo Nat [1, 2, 3] [4] 2 (by decide)⟩

/-! ## Claim C9 -/

/-- C9 (counterexample): an unknown exception is not handled as a
`TransmissionError`-class failure.  The request is marked failed, but the
radio is not marked disconnected, `disconnect()` is not called, and the
queue is not paused. -/
theorem C9_counterexample :
    (process_request_on_exc WorkerExc.unknown).statusFailed = true ∧
    (process_request_on_exc WorkerExc.unknown).hackrfMarkedDisconnected = false ∧
    (process_request_on_exc WorkerExc.unknown).sdrDisconnectCalled = false ∧
    (process_request_on_exc WorkerExc.unknown).queuePaused = false := by
  exact ⟨rfl, rfl, rfl, rfl⟩

/-- C9 (amended): every exception caught during request processing —
known or unknown — is routed through `_handle_error` and ends the request
Failed, but the disconnect-mark/disconnect-call/queue-pause trio happens
exactly for `TransmissionError`, not for unknown exceptions. -/
theorem C9_error_handling (exc : WorkerExc) :
    (process_request_on_exc exc).statusFailed = true ∧
    ((process_request_on_exc exc).hackrfMarkedDisconnected = true
      ↔ exc = WorkerExc.transmissionError) ∧
    ((process_request_on_exc exc).sdrDisconnectCalled = true
      ↔ exc = WorkerExc.transmissionError) ∧
    ((process_request_on_exc exc).queuePaused = true
      ↔ exc = WorkerExc.transmissionError) := by
  cases exc <;> simp [process_request_on_exc, handle_error, isTransmissionErrorExc]

/-! ## Claim C10 -/

/-- C10: the public `encode` either returns samples or fails with
`EncodingError`: every internal failure, including the `ValueError`s of
input validation, is wrapped, so `encode` never surfaces a `ValueError`;
moreover a validation failure with message `m` surfaces exactly as
`EncodingError m`. -/
theorem C10_encode_wraps_errors (ric message : List Char) (messageType : String)
    (baudRate : Nat) :
    ((∃ v, encode ric message messageType baudRate = Except.ok v) ∨
      (∃ m, encode ric message messageType baudRate
        = Except.error (PyErr.encodingError m))) ∧
    (∀ m, encoder_validate_inputs ric message messageType baudRate = Except.error m →
      encode ric message messageType baudRate = Except.error (PyErr.encodingError m)) := by
  constructor
  · unfold encode
    cases encode_inner ric message messageType baudRate with
    | ok v => exact Or.inl ⟨v, rfl⟩
    | error e => exact Or.inr ⟨pyErrMessage e, rfl⟩
  · intro m hm
    unfold encode encode_inner
    rw [hm]
    rfl

/-- C10 (witness): at the malformed RIC "a", validation fails and `encode`
surfaces the wrapped `EncodingError`. -/
theorem C10_encode_wraps_errors_witness :
    (((∃ v, encode ['a'] [] "numeric" 1200 = Except.ok v) ∨
      (∃ m, encode ['a'] [] "numeric" 1200 = Except.error (PyErr.encodingError m))) ∧
    (∀ m, encoder_validate_inputs ['a'] [] "numeric" 1200 = Except.error m →
      encode ['a'] [] "numeric" 1200 = Except.error (PyErr.encodingError m))) ∧
    encoder_validate_inputs ['a'] [] "numeric" 1200
      = Except.error "RIC must be a digit string of length 1-7" :=
  ⟨C10_encode_wraps_errors ['a'] [] "numeric" 1200, by rfl⟩
